import Mathlib

/-!
Verification of the mt-kahypar recursive-bipartitioning driver and its
auxiliary components, shallowly embedded from the C++ sources
(`recursive_bipartitioning.cpp`, `context_enum_classes.cpp`, the
`Clustering` / `StreamingVector` / `ProcessGraph` headers and the
concurrent-hypergraph test suite).

Conventions of the embedding:
* machine integers (`PartitionID`, `HypernodeWeight`) are modelled as
  `ℕ` / `ℤ` (no overflow occurs in the verified fragments);
* C++ `double` arithmetic is idealised as real arithmetic `ℝ`;
  a `double → integer` conversion of a non-negative value is `Int.floor`
  (C++ truncation toward zero);
* fallible string parsers return their reported-error flag explicitly.
-/

namespace MtKaHyPar

/-! ## Enum classes and string parsers (`context_enum_classes.cpp`) -/

/-- The `Mode` enum class. -/
inductive Mode where
  | recursive_bipartitioning
  | direct
  | deep_multilevel
  | UNDEFINED
deriving DecidableEq

/-- The `AcceptancePolicy` enum class (`best` exists only under
`KAHYPAR_ENABLE_EXPERIMENTAL_FEATURES`). -/
inductive AcceptancePolicy where
  | best
  | best_prefer_unmatched
  | UNDEFINED
deriving DecidableEq

/-- Embedding of `modeFromString` (context_enum_classes.cpp:278-288).
The result is a pair `(error_reported, returned_mode)`: on the three
accepted strings it returns the mode without reporting an error, otherwise
it executes `ERR("Illegal option: " + mode)` and returns `Mode::UNDEFINED`.
The `ERR` macro is not part of the provided sources; following the spec's
error-handling design ("reported immediately with a short message") it is
modelled as reporting and continuing. -/
def modeFromString (mode : String) : Bool × Mode :=
  if mode = "rb" then
    (false, Mode.recursive_bipartitioning)
  else if mode = "direct" then
    (false, Mode.direct)
  else if mode = "deep" then
    (false, Mode.deep_multilevel)
  else
    (true, Mode.UNDEFINED)

/-- Embedding of `acceptanceCriterionFromString`
(context_enum_classes.cpp:388-398).  The C++ function returns
`AcceptancePolicy`; on the error branch it executes `ERR(...)` and then
falls off the end of the function **without returning a value**.  We model
the returned value as `Option AcceptancePolicy`: `none` is the
fell-off-the-end case in which no return value was ever assigned.
`experimental` reflects `KAHYPAR_ENABLE_EXPERIMENTAL_FEATURES`, which
guards the `"best"` branch. -/
def acceptanceCriterionFromString (experimental : Bool) (crit : String) :
    Bool × Option AcceptancePolicy :=
  if crit = "best_prefer_unmatched" then
    (false, some AcceptancePolicy.best_prefer_unmatched)
  else if experimental ∧ crit = "best" then
    (false, some AcceptancePolicy.best)
  else
    (true, none)

/-! ## Recursive bipartitioning driver (`recursive_bipartitioning.cpp`) -/

/-- The `Objective` enum class. -/
inductive Objective where
  | cut
  | km1
  | soed
  | process_mapping
  | UNDEFINED
deriving DecidableEq

/-- One spawned call `recursively_bipartition_block(phg, ctx, block, k0, k1, info, dop)`,
recorded as `(block, k0, k1, degree_of_parallelism)`.  The parallelism
factor (a C++ `double` that is only ever `0.5` or `1.0` here) is modelled
as `ℚ`. -/
structure RecursionCall where
  block : ℕ
  k0 : ℕ
  k1 : ℕ
  dop : ℚ
deriving DecidableEq

/-- Trace of `tmp::recursive_bipartitioning` (recursive_bipartitioning.cpp:194-245)
after the external `multilevel::partition` bisection returned the 2-way
partition `bip`: the block assigned to each node by the
`doParallelForAllNodes` / `setOnlyNodePart` loop, the number of
`initializePartition` calls, and the list of recursive calls spawned. -/
structure BisectionTrace where
  assignment : ℕ → ℕ
  initPartitionCalls : ℕ
  recursions : List RecursionCall

/-- Embedding of `tmp::recursive_bipartitioning`: `ctxk` is
`context.partition.k`, `(k0, k1)` the block range arguments, and `bip` the
bipartition produced by the external bisector (`bipartitioned_hg.partID`).
Mirrors the source: `block_0 = 0`, `block_1 = k/2 + k%2` with
`k = k1 - k0`, `rb_k0 = ctxk/2 + ctxk%2`, `rb_k1 = ctxk/2`, and the
two-sided parallel recursion when `rb_k0 ≥ 2 ∧ rb_k1 ≥ 2`, the one-sided
recursion when only `rb_k0 ≥ 2`, and no recursion otherwise. -/
def recursive_bipartitioning (ctxk k0 k1 : ℕ) (bip : ℕ → ℕ) : BisectionTrace where
  assignment := fun hn =>
    if bip hn = 0 then 0 else (k1 - k0) / 2 + (k1 - k0) % 2
  initPartitionCalls := 1
  recursions :=
    if 2 ≤ ctxk / 2 + ctxk % 2 ∧ 2 ≤ ctxk / 2 then
      [⟨0, 0, ctxk / 2 + ctxk % 2, 1/2⟩,
       ⟨(k1 - k0) / 2 + (k1 - k0) % 2, ctxk / 2 + ctxk % 2,
        (ctxk / 2 + ctxk % 2) + ctxk / 2, 1/2⟩]
    else if 2 ≤ ctxk / 2 + ctxk % 2 then
      [⟨0, 0, ctxk / 2 + ctxk % 2, 1⟩]
    else
      []

/-- Sequential semantics of one `phg.changeNodePart(v, f, t)` call during the
copy-back phase: the assignment of `v` becomes `t` exactly when `v` is
currently assigned to `f` (the CAS condition); no other node changes. -/
def changeNodePartFn (part : ℕ → ℕ) (v f t : ℕ) : ℕ → ℕ :=
  fun u => if u = v ∧ part v = f then t else part u

/-- Apply a list of `changeNodePart` calls in order. -/
def applyMoves (part : ℕ → ℕ) (moves : List (ℕ × ℕ × ℕ)) : ℕ → ℕ :=
  moves.foldl (fun p m => changeNodePartFn p m.1 m.2.1 m.2.2) part

/-- The `changeNodePart` calls issued by the copy-back loop of
`tmp::recursively_bipartition_block` (lines 266-275): for every node
`hn < n` with `phg.partID(hn) = block`, compute
`to = block + rb_phg.partID(mapping[hn])` and call
`changeNodePart(hn, block, to)` when `block ≠ to`. -/
def copyBackMoves (part : ℕ → ℕ) (n block : ℕ) (mapping rbPart : ℕ → ℕ) :
    List (ℕ × ℕ × ℕ) :=
  (List.range n).filterMap (fun hn =>
    if part hn = block then
      if block ≠ block + rbPart (mapping hn) then
        some (hn, block, block + rbPart (mapping hn))
      else none
    else none)

/-- Trace of one `tmp::recursively_bipartition_block` call: the
`cut_net_splitting` flag passed to `extract`, the number of blocks of the
fresh sub-partitioned-hypergraph, whether the recursion branch was taken,
the `changeNodePart` calls issued, and the resulting parent partition. -/
structure BlockRecursionTrace where
  cutNetSplitting : Bool
  subK : ℕ
  recursed : Bool
  moves : List (ℕ × ℕ × ℕ)
  newPart : ℕ → ℕ

/-- Embedding of `tmp::recursively_bipartition_block`
(recursive_bipartitioning.cpp:248-277).  `part` is the parent partition
(`phg.partID`), `n = phg.initialNumNodes()`, `mapping` the node mapping
returned by `extract`, `numSubNodes = rb_hg.initialNumNodes()`, and
`rbPart` the sub-partition produced by the recursive
`recursive_bipartitioning` call (left abstract here, as it is driven by
the external bisector). -/
def recursively_bipartition_block (part : ℕ → ℕ) (n : ℕ) (objective : Objective)
    (block k0 k1 : ℕ) (mapping : ℕ → ℕ) (numSubNodes : ℕ) (rbPart : ℕ → ℕ) :
    BlockRecursionTrace :=
  if 0 < numSubNodes then
    { cutNetSplitting := decide (objective = Objective.km1)
      subK := k1 - k0
      recursed := true
      moves := copyBackMoves part n block mapping rbPart
      newPart := applyMoves part (copyBackMoves part n block mapping rbPart) }
  else
    { cutNetSplitting := decide (objective = Objective.km1)
      subK := k1 - k0
      recursed := false
      moves := []
      newPart := part }

/-! ## Clustering (`Clustering` header appended to `context_enum_classes.cpp`) -/

/-- Recursive pass of `Clustering::sequentialCompactify`: walk the cluster
vector; a cluster id seen for the first time (C++ `mapping[c] == -1`,
modelled as `none`) receives the next fresh label `i`.  Returns the
relabelled vector and the final label counter (the cluster count). -/
def sequentialCompactifyGo : List ℕ → (ℕ → Option ℕ) → ℕ → List ℕ × ℕ
  | [], _, i => ([], i)
  | c :: cs, m, i =>
    match m c with
    | some x =>
      let r := sequentialCompactifyGo cs m i
      (x :: r.1, r.2)
    | none =>
      let r := sequentialCompactifyGo cs (fun j => if j = c then some i else m j) (i + 1)
      (i :: r.1, r.2)

/-- `Clustering::sequentialCompactify` with the mapping table initially all
`-1` and the label counter at `0`. -/
def sequentialCompactify (l : List ℕ) : List ℕ × ℕ :=
  sequentialCompactifyGo l (fun _ => none) 0

/-- The presence bitmap written by the first `parallel_for_each` of
`Clustering::parallelCompactify` (`mapping[c] = 1` for every cluster id
`c` occurring in the vector). -/
def presenceBitmap (l : List ℕ) (j : ℕ) : ℕ := if j ∈ l then 1 else 0

/-- Modelled from the spec: `PrefixSum::parallelTwoPhase` lives in
`parallel_prefix_sum.h`, which is not among the provided sources; the spec
describes it as "a parallel prefix sum over that bitmap".  It is modelled
as the inclusive prefix sum `mapping[c] = Σ_{j ≤ c} bitmap[j]` computed in
place over the bitmap (the convention under which `mapping.back()` equals
the number of distinct ids, as the subsequent code expects). -/
def prefixSumBitmap (l : List ℕ) (c : ℕ) : ℕ :=
  ((List.range (c + 1)).map (presenceBitmap l)).sum

/-- `Clustering::parallelCompactify`: relabel every entry `c` to
`mapping[c]` after the prefix sum, and return `mapping.back()`
(`= mapping[upperIDBound]`) as the cluster count. -/
def parallelCompactify (l : List ℕ) (ub : ℕ) : List ℕ × ℕ :=
  (l.map (prefixSumBitmap l), prefixSumBitmap l ub)

/-- `Clustering::compactify(upperIDBound, numTasks)`: a negative bound
defaults to `size() - 1`; `numTasks > 1` selects the parallel path,
otherwise the sequential path runs. -/
def compactify (l : List ℕ) (upperIDBound : ℤ) (numTasks : ℕ) : List ℕ × ℕ :=
  if 1 < numTasks then
    parallelCompactify l (if upperIDBound < 0 then l.length - 1 else upperIDBound.toNat)
  else
    sequentialCompactify l

/-! ## ProcessGraph connectivity-set encoding (`ProcessGraph::index`) -/

/-- The loop of `ProcessGraph::index(connectivity_set)` over the blocks of
the set in ascending order (the iteration order of a `StaticBitset`),
carrying `(index, multiplier, last_block)`; `last_block` starts at
`kInvalidPartition`, modelled as `none`. -/
def pgIndexLoop (k : ℕ) (l : List ℕ) : ℕ × ℕ × Option ℕ :=
  l.foldl (fun st b => (st.1 + st.2.1 * b, st.2.1 * k, some b)) (0, 1, none)

/-- `ProcessGraph::index(connectivity_set)`: the loop result plus the
correction term `last_block * k` exactly when the final multiplier equals
`k`.  (For `k ≥ 2` the multiplier is `1 ≠ k` on the empty set, so the
`none` default is never read.) -/
def pgIndex (k : ℕ) (l : List ℕ) : ℕ :=
  (pgIndexLoop k l).1 +
    (if (pgIndexLoop k l).2.1 = k then ((pgIndexLoop k l).2.2.getD 0) * k else 0)

/-- The mixed-radix value `Σᵢ cᵢ · k^i` of a digit list, as the spec
describes the encoding. -/
def mixedRadixVal (k : ℕ) : List ℕ → ℕ
  | [] => 0
  | c :: cs => c + k * mixedRadixVal k cs

/-! ## Concurrent `changeNodePart` (PartitionedHypergraph) -/

/-- Modelled from the spec: the mutable partition state of a
`PartitionedHypergraph` as observed through its API — `part[v]`,
`partWeight[b]`, `partSize[b]`.  The data-structure source itself is not
among the provided files (only its concurrent test suite is); spec §4.1
defines `changeNodePart(v, from, to)` as a CAS on `part[v]` followed, on
success, by four atomic counter updates. -/
structure PHGState where
  part : ℕ → ℕ
  partWeight : ℕ → ℤ
  partSize : ℕ → ℤ

/-- Atomic `partWeight[b] += d`. -/
def addWeight (b : ℕ) (d : ℤ) (g : PHGState) : PHGState :=
  { g with partWeight := fun x => if x = b then g.partWeight x + d else g.partWeight x }

/-- Atomic `partSize[b] += d`. -/
def addSize (b : ℕ) (d : ℤ) (g : PHGState) : PHGState :=
  { g with partSize := fun x => if x = b then g.partSize x + d else g.partSize x }

/-- The write performed by a successful CAS on `part[v]`. -/
def setPart (v t : ℕ) (g : PHGState) : PHGState :=
  { g with part := fun x => if x = v then t else g.part x }

/-- Modelled from the spec (§4.1): one full `changeNodePart(v, f, t)`
executed in isolation, with `w` the node-weight function — CAS on
`part[v]` (failure returns `false` and changes nothing), then
`partWeight[f] -= w(v)`, `partWeight[t] += w(v)`, `partSize[f]--`,
`partSize[t]++`. -/
def changeNodePartAtomic (w : ℕ → ℤ) (v f t : ℕ) (g : PHGState) : Bool × PHGState :=
  if g.part v = f then
    (true, addSize t 1 (addSize f (-1)
      (addWeight t (w v) (addWeight f (-(w v)) (setPart v t g)))))
  else
    (false, g)

/-- Program counter of a thread running `changeNodePart`: `ready` = about
to execute the CAS; `won j` = CAS succeeded and `j ∈ [0, 4]` of the four
counter updates are done (`won 4` = finished, the call returns `true`);
`lost` = CAS failed, finished, the call returns `false`. -/
inductive TStat where
  | ready
  | won : ℕ → TStat
  | lost
deriving DecidableEq

/-- One atomic action of a thread executing `changeNodePart(v, f, t)`:
each action is a single atomic read-modify-write, the granularity the
source guarantees (per-node CAS, per-cell atomic counters). -/
def tStep (w : ℕ → ℤ) (v f t : ℕ) (g : PHGState) : TStat → PHGState × TStat
  | TStat.ready =>
    if g.part v = f then (setPart v t g, TStat.won 0) else (g, TStat.lost)
  | TStat.won 0 => (addWeight f (-(w v)) g, TStat.won 1)
  | TStat.won 1 => (addWeight t (w v) g, TStat.won 2)
  | TStat.won 2 => (addSize f (-1) g, TStat.won 3)
  | TStat.won 3 => (addSize t 1 g, TStat.won 4)
  | s => (g, s)

/-- Shared state plus the two thread program counters: thread 1 runs
`changeNodePart(v, f, t1)` and thread 2 runs `changeNodePart(v, f, t2)`. -/
structure TwoThreadConfig where
  g : PHGState
  s1 : TStat
  s2 : TStat

/-- The scheduler executes one atomic action of thread 1 (`i = true`) or
thread 2 (`i = false`); a finished thread stutters. -/
def twoThreadStep (w : ℕ → ℤ) (v f t1 t2 : ℕ) (c : TwoThreadConfig) (i : Bool) :
    TwoThreadConfig :=
  if i then
    { g := (tStep w v f t1 c.g c.s1).1, s1 := (tStep w v f t1 c.g c.s1).2, s2 := c.s2 }
  else
    { g := (tStep w v f t2 c.g c.s2).1, s1 := c.s1, s2 := (tStep w v f t2 c.g c.s2).2 }

/-- Run an arbitrary finite interleaving of the two threads. -/
def runSched (w : ℕ → ℤ) (v f t1 t2 : ℕ) (sched : List Bool) (c : TwoThreadConfig) :
    TwoThreadConfig :=
  sched.foldl (twoThreadStep w v f t1 t2) c

/-- A thread has returned: either its CAS failed (`lost`, returning
`false`) or it completed all four updates (`won 4`, returning `true`). -/
def finishedStat (s : TStat) : Prop := s = TStat.lost ∨ s = TStat.won 4

instance (s : TStat) : Decidable (finishedStat s) :=
  inferInstanceAs (Decidable (s = TStat.lost ∨ s = TStat.won 4))

/-- Both concurrent `changeNodePart` calls have returned. -/
def bothFinished (c : TwoThreadConfig) : Prop := finishedStat c.s1 ∧ finishedStat c.s2

instance (c : TwoThreadConfig) : Decidable (bothFinished c) :=
  inferInstanceAs (Decidable (finishedStat c.s1 ∧ finishedStat c.s2))

/-- The `j`-th counter update of a successful `changeNodePart(v, f, t)`. -/
def wonUpdate (w : ℕ → ℤ) (v f t : ℕ) (j : ℕ) (g : PHGState) : PHGState :=
  match j with
  | 0 => addWeight f (-(w v)) g
  | 1 => addWeight t (w v) g
  | 2 => addSize f (-1) g
  | 3 => addSize t 1 g
  | _ => g

/-- The shared state after the winning thread's CAS and its first `j`
counter updates, starting from `g0`. -/
def wonState (w : ℕ → ℤ) (v f t : ℕ) (g0 : PHGState) : ℕ → PHGState
  | 0 => setPart v t g0
  | j + 1 => wonUpdate w v f t j (wonState w v f t g0 j)

/-- Invariant of the two-thread race on the same `(v, f)`: either nobody
has executed its CAS yet, or exactly one thread has won the CAS (the
other still pending or already lost) and the shared state reflects the
winner's partial progress. -/
def raceInv (w : ℕ → ℤ) (v f t1 t2 : ℕ) (g0 : PHGState) (c : TwoThreadConfig) : Prop :=
  (c.g = g0 ∧ c.s1 = TStat.ready ∧ c.s2 = TStat.ready) ∨
  (∃ j, j ≤ 4 ∧ c.s1 = TStat.won j ∧ (c.s2 = TStat.ready ∨ c.s2 = TStat.lost) ∧
    c.g = wonState w v f t1 g0 j) ∨
  (∃ j, j ≤ 4 ∧ c.s2 = TStat.won j ∧ (c.s1 = TStat.ready ∨ c.s1 = TStat.lost) ∧
    c.g = wonState w v f t2 g0 j)

/-- The claim of C6 exactly as stated: for the same node `v` and source
block `f`, any two concurrently executed `changeNodePart(v, f, t1)` and
`changeNodePart(v, f, t2)` with `t1 ≠ t2` (and no further restriction)
end, under every complete interleaving, with exactly one thread returning
`true` and one returning `false`, and with the shared state equal to the
winning move applied alone. -/
def raceClaimAsStated : Prop :=
  ∀ (w : ℕ → ℤ) (g0 : PHGState) (v f t1 t2 : ℕ), g0.part v = f → t1 ≠ t2 →
    ∀ sched : List Bool,
      bothFinished (runSched w v f t1 t2 sched ⟨g0, TStat.ready, TStat.ready⟩) →
      ((runSched w v f t1 t2 sched ⟨g0, TStat.ready, TStat.ready⟩).s1 = TStat.won 4 ∧
       (runSched w v f t1 t2 sched ⟨g0, TStat.ready, TStat.ready⟩).s2 = TStat.lost ∧
       (runSched w v f t1 t2 sched ⟨g0, TStat.ready, TStat.ready⟩).g =
         (changeNodePartAtomic w v f t1 g0).2) ∨
      ((runSched w v f t1 t2 sched ⟨g0, TStat.ready, TStat.ready⟩).s2 = TStat.won 4 ∧
       (runSched w v f t1 t2 sched ⟨g0, TStat.ready, TStat.ready⟩).s1 = TStat.lost ∧
       (runSched w v f t1 t2 sched ⟨g0, TStat.ready, TStat.ready⟩).g =
         (changeNodePartAtomic w v f t2 g0).2)

/-! ## Bipartitioning context setup (`setupBipartitioningContext`)

C++ `double` arithmetic is idealised over `ℝ`.  The bisection context's
`perfect_balance_part_weights` and `max_part_weights` are
`std::vector<HypernodeWeight>` entries (the `Context` class itself is
outside the provided sources; per the spec's data model, weights are
signed integers), so a `double` expression pushed into them is converted
to an integer: exact when the value is integral (`std::ceil`,
`std::round` results), truncation toward zero otherwise — `Int.floor` on
the non-negative values arising here. -/

/-- `OriginalHypergraphInfo::computeAdaptiveEpsilon`
(recursive_bipartitioning.cpp:69-81): `0` when the current weight is `0`,
otherwise `min(0.99, max(base^(1.0/ceil(log2(k))) - 1.0, 0.0))` with
`base = ceil(W₀/k₀) / ceil(W/k) · (1 + ε₀)`. -/
noncomputable def computeAdaptiveEpsilon (W0 k0 : ℕ) (eps0 : ℝ) (W k : ℕ) : ℝ :=
  if W = 0 then 0
  else
    min 0.99 (max
      ((((⌈(W0 : ℝ) / (k0 : ℝ)⌉ : ℤ) : ℝ) / ((⌈(W : ℝ) / (k : ℝ)⌉ : ℤ) : ℝ) *
          (1 + eps0)) ^
        ((1 : ℝ) / ((⌈Real.logb 2 (k : ℝ)⌉ : ℤ) : ℝ)) - 1) 0)

/-- The part-weight fields `setupBipartitioningContext` writes into the
bisection context. -/
structure BipartWeights where
  epsilon : ℝ
  perfect0 : ℤ
  perfect1 : ℤ
  max0 : ℤ
  max1 : ℤ

/-- The default (`use_individual_part_weights` unset) branch of
`tmp::setupBipartitioningContext` (recursive_bipartitioning.cpp:143-156):
`k0 = k/2 + (k%2 != 0)`, `k1 = k/2`, the adaptive epsilon, perfect
weights `ceil(k_side/k · W)` (integral, stored exactly) and max weights
`(1 + ε')·perfect` (truncated by the integer vector element type). -/
noncomputable def setupBipartitioningContextDefault (W0 k0n : ℕ) (eps0 : ℝ)
    (W k : ℕ) : BipartWeights :=
  let kk0 : ℕ := k / 2 + (if k % 2 ≠ 0 then 1 else 0)
  let kk1 : ℕ := k / 2
  let eps := computeAdaptiveEpsilon W0 k0n eps0 W k
  let p0 : ℤ := ⌈(kk0 : ℝ) / (k : ℝ) * (W : ℝ)⌉
  let p1 : ℤ := ⌈(kk1 : ℝ) / (k : ℝ) * (W : ℝ)⌉
  { epsilon := eps
    perfect0 := p0
    perfect1 := p1
    max0 := ⌊(1 + eps) * (p0 : ℝ)⌋
    max1 := ⌊(1 + eps) * (p1 : ℝ)⌋ }

/-- The `use_individual_part_weights` branch of
`tmp::setupBipartitioningContext` (recursive_bipartitioning.cpp:111-142):
`M` is the parent context's `max_part_weights` array,
`f = W / Σ M[i]`, the two perfect weights accumulate `ceil(f · M[i])`
over `i < k0` resp. `k0 ≤ i < k`, `base = Σ M[i] / (p0 + p1)`, epsilon is
clamped as in the default path (`0` when `W = 0`), and the max weights are
`round((1 + ε')·pᵢ)` (integral, stored exactly). -/
noncomputable def setupBipartitioningContextIndividual (M : List ℕ) (W k : ℕ) :
    BipartWeights :=
  let sumM : ℕ := M.sum
  let f : ℝ := (W : ℝ) / (sumM : ℝ)
  let kk0 : ℕ := k / 2 + (if k % 2 ≠ 0 then 1 else 0)
  let p0 : ℤ := ((M.take kk0).map (fun m => ⌈f * (m : ℝ)⌉)).sum
  let p1 : ℤ := ((M.drop kk0).map (fun m => ⌈f * (m : ℝ)⌉)).sum
  let eps : ℝ :=
    if W = 0 then 0
    else
      min 0.99 (max
        (((sumM : ℝ) / (((p0 + p1 : ℤ)) : ℝ)) ^
          ((1 : ℝ) / ((⌈Real.logb 2 (k : ℝ)⌉ : ℤ) : ℝ)) - 1) 0)
  { epsilon := eps
    perfect0 := p0
    perfect1 := p1
    max0 := round ((1 + eps) * (p0 : ℝ))
    max1 := round ((1 + eps) * (p1 : ℝ)) }

/-- The first perfect weight of the individual path in source form
(`k0 = k/2 + (k%2 != 0)` and the loop over `i < k0`). -/
noncomputable def individualPerfectCode0 (M : List ℕ) (W k : ℕ) : ℤ :=
  ((M.take (k / 2 + (if k % 2 ≠ 0 then 1 else 0))).map
    (fun m => ⌈(W : ℝ) / (M.sum : ℝ) * (m : ℝ)⌉)).sum

/-- The second perfect weight of the individual path in source form (the
loop over `k0 ≤ i < k`). -/
noncomputable def individualPerfectCode1 (M : List ℕ) (W k : ℕ) : ℤ :=
  ((M.drop (k / 2 + (if k % 2 ≠ 0 then 1 else 0))).map
    (fun m => ⌈(W : ℝ) / (M.sum : ℝ) * (m : ℝ)⌉)).sum

/-- The epsilon of the individual path in source form. -/
noncomputable def individualEpsilonCode (M : List ℕ) (W k : ℕ) : ℝ :=
  if W = 0 then 0
  else
    min 0.99 (max
      (((M.sum : ℝ) /
          (((individualPerfectCode0 M W k + individualPerfectCode1 M W k : ℤ)) : ℝ)) ^
        ((1 : ℝ) / ((⌈Real.logb 2 (k : ℝ)⌉ : ℤ) : ℝ)) - 1) 0)

/-- `clamp(x, lo, hi)` as the spec writes it. -/
noncomputable def clamp (x lo hi : ℝ) : ℝ := max lo (min x hi)

/-- The adaptive-ε formula in the spec's own words:
`ε' = clamp(base^(1/⌈log₂ k⌉) − 1, 0, 0.99)` with
`base = ⌈W₀/k₀⌉ / ⌈W/k⌉ · (1 + ε₀)`, and `ε' = 0` when `W = 0`. -/
noncomputable def adaptiveEpsilonSpec (W0 k0 : ℕ) (eps0 : ℝ) (W k : ℕ) : ℝ :=
  if W = 0 then 0
  else
    clamp
      ((((⌈(W0 : ℝ) / (k0 : ℝ)⌉ : ℤ) : ℝ) / ((⌈(W : ℝ) / (k : ℝ)⌉ : ℤ) : ℝ) *
          (1 + eps0)) ^
        ((1 : ℝ) / ((⌈Real.logb 2 (k : ℝ)⌉ : ℤ) : ℝ)) - 1)
      0 0.99

/-- `s₀ = Σ_{i<⌈k/2⌉} ⌈f · M[i]⌉` with `f = W / Σ M[i]`, in the spec's
words (`⌈k/2⌉ = (k+1)/2`). -/
noncomputable def individualPerfectSpec0 (M : List ℕ) (W k : ℕ) : ℤ :=
  ((M.take ((k + 1) / 2)).map (fun m => ⌈(W : ℝ) / (M.sum : ℝ) * (m : ℝ)⌉)).sum

/-- `s₁ = Σ_{i≥⌈k/2⌉} ⌈f · M[i]⌉` with `f = W / Σ M[i]`, in the spec's
words. -/
noncomputable def individualPerfectSpec1 (M : List ℕ) (W k : ℕ) : ℤ :=
  ((M.drop ((k + 1) / 2)).map (fun m => ⌈(W : ℝ) / (M.sum : ℝ) * (m : ℝ)⌉)).sum

/-- The individual-part-weights ε formula in the spec's words:
`clamp(base^(1/⌈log₂ k⌉) − 1, 0, 0.99)` with `base = Σ M[i] / (s₀ + s₁)`,
and `0` when `W = 0`. -/
noncomputable def individualEpsilonSpec (M : List ℕ) (W k : ℕ) : ℝ :=
  if W = 0 then 0
  else
    clamp
      (((M.sum : ℝ) /
          (((individualPerfectSpec0 M W k + individualPerfectSpec1 M W k : ℤ)) : ℝ)) ^
        ((1 : ℝ) / ((⌈Real.logb 2 (k : ℝ)⌉ : ℤ) : ℝ)) - 1)
      0 0.99

end MtKaHyPar

namespace MtKaHyPar

/-- C9: `modeFromString` maps exactly `"rb"`, `"direct"` and `"deep"` to the
three modes `recursive_bipartitioning`, `direct` and `deep_multilevel`
(without reporting an error), and on every other input string it reports an
error and yields `Mode::UNDEFINED`, which is none of the three valid
modes. -/
theorem modeFromString_spec (s : String) :
    modeFromString "rb" = (false, Mode.recursive_bipartitioning) ∧
    modeFromString "direct" = (false, Mode.direct) ∧
    modeFromString "deep" = (false, Mode.deep_multilevel) ∧
    (s ≠ "rb" → s ≠ "direct" → s ≠ "deep" →
      (modeFromString s).1 = true ∧
      (modeFromString s).2 = Mode.UNDEFINED ∧
      (modeFromString s).2 ≠ Mode.recursive_bipartitioning ∧
      (modeFromString s).2 ≠ Mode.direct ∧
      (modeFromString s).2 ≠ Mode.deep_multilevel) := by
  refine ⟨rfl, rfl, rfl, fun h1 h2 h3 => ?_⟩
  simp [modeFromString, h1, h2, h3]

/-- Witness for C9 at the concrete unknown string `"kway"`. -/
theorem modeFromString_spec_witness :
    (modeFromString "kway").1 = true ∧ (modeFromString "kway").2 = Mode.UNDEFINED := by
  have h := modeFromString_spec "kway"
  have h4 := h.2.2.2 (by decide) (by decide) (by decide)
  exact ⟨h4.1, h4.2.1⟩

/-- C8: on every input string other than the accepted variants
(`"best_prefer_unmatched"`, and `"best"` when experimental features are
enabled), `acceptanceCriterionFromString` reports the error and then falls
off the end of the function without assigning a return value (modelled as
`none`): in particular it neither returns the sentinel `UNDEFINED` nor any
other `AcceptancePolicy` value. -/
theorem acceptanceCriterionFromString_error_branch (experimental : Bool) (s : String)
    (h1 : s ≠ "best_prefer_unmatched") (h2 : experimental = true → s ≠ "best") :
    (acceptanceCriterionFromString experimental s).1 = true ∧
    (acceptanceCriterionFromString experimental s).2 = none ∧
    (acceptanceCriterionFromString experimental s).2 ≠ some AcceptancePolicy.UNDEFINED := by
  have hguard : ¬(experimental = true ∧ s = "best") := by
    rintro ⟨he, hs⟩
    exact h2 he hs
  simp [acceptanceCriterionFromString, h1, hguard]

/-- Witness for C8 at the concrete rejected string `"worst"` with
experimental features enabled. -/
theorem acceptanceCriterionFromString_error_branch_witness :
    (acceptanceCriterionFromString true "worst").1 = true ∧
    (acceptanceCriterionFromString true "worst").2 = none := by
  have h := acceptanceCriterionFromString_error_branch true "worst" (by decide)
    (fun _ => by decide)
  exact ⟨h.1, h.2.1⟩

/-- Ceiling of `m / 2` on naturals, as the source computes it. -/
theorem half_up_eq (m : ℕ) : m / 2 + m % 2 = (m + 1) / 2 := by omega

/-- C2: in `recursive_bipartitioning` over the range `(k0, k1)` with
`k = k1 - k0`, every node with bisection part `0` is assigned to block `0`
and every other node to block `⌈k/2⌉ = (k+1)/2`; exactly one
`initializePartition` call follows; and with `rb_k0 = ⌈ctxk/2⌉`,
`rb_k1 = ⌊ctxk/2⌋`, both blocks are recursed with parallelism `0.5` each
when `rb_k0 ≥ 2 ∧ rb_k1 ≥ 2` (block `0` over `(0, rb_k0)` and block
`⌈k/2⌉` over `(rb_k0, rb_k0 + rb_k1)`), only block `0` is recursed with
parallelism `1.0` when only `rb_k0 ≥ 2`, and there is no recursion
otherwise. -/
theorem recursive_bipartitioning_spec (ctxk k0 k1 : ℕ) (bip : ℕ → ℕ)
    (hn : ℕ) :
    ((recursive_bipartitioning ctxk k0 k1 bip).assignment hn =
      if bip hn = 0 then 0 else (k1 - k0 + 1) / 2) ∧
    (recursive_bipartitioning ctxk k0 k1 bip).initPartitionCalls = 1 ∧
    (2 ≤ (ctxk + 1) / 2 → 2 ≤ ctxk / 2 →
      (recursive_bipartitioning ctxk k0 k1 bip).recursions =
        [⟨0, 0, (ctxk + 1) / 2, 1/2⟩,
         ⟨(k1 - k0 + 1) / 2, (ctxk + 1) / 2, (ctxk + 1) / 2 + ctxk / 2, 1/2⟩]) ∧
    (2 ≤ (ctxk + 1) / 2 → ctxk / 2 < 2 →
      (recursive_bipartitioning ctxk k0 k1 bip).recursions =
        [⟨0, 0, (ctxk + 1) / 2, 1⟩]) ∧
    ((ctxk + 1) / 2 < 2 →
      (recursive_bipartitioning ctxk k0 k1 bip).recursions = []) := by
  refine ⟨?_, rfl, ?_, ?_, ?_⟩
  · simp only [recursive_bipartitioning, half_up_eq]
  · intro ha hb
    simp only [recursive_bipartitioning, half_up_eq]
    rw [if_pos ⟨ha, hb⟩]
  · intro ha hb
    simp only [recursive_bipartitioning, half_up_eq]
    rw [if_neg (by omega), if_pos ha]
  · intro ha
    simp only [recursive_bipartitioning, half_up_eq]
    rw [if_neg (by omega), if_neg (by omega)]

/-- Witness for C2 at `ctxk = 4`, range `(0, 4)`, with the bisection
assigning node `0` to part `0` and node `1` to part `1`. -/
theorem recursive_bipartitioning_spec_witness :
    (recursive_bipartitioning 4 0 4 (fun v => v % 2)).assignment 1 = 2 ∧
    (recursive_bipartitioning 4 0 4 (fun v => v % 2)).recursions =
      [⟨0, 0, 2, 1/2⟩, ⟨2, 2, 4, 1/2⟩] := by
  have h := recursive_bipartitioning_spec 4 0 4 (fun v => v % 2) 1
  refine ⟨by rw [h.1]; norm_num, by rw [h.2.2.1 (by norm_num) (by norm_num)]⟩

/-- `applyMoves` distributes over list append. -/
theorem applyMoves_append (part : ℕ → ℕ) (a b : List (ℕ × ℕ × ℕ)) :
    applyMoves part (a ++ b) = applyMoves (applyMoves part a) b := by
  simp [applyMoves, List.foldl_append]

/-- A node touched by none of the moves keeps its assignment. -/
theorem applyMoves_of_ne (part : ℕ → ℕ) (ms : List (ℕ × ℕ × ℕ)) (u : ℕ)
    (h : ∀ m ∈ ms, m.1 ≠ u) : applyMoves part ms u = part u := by
  induction ms generalizing part with
  | nil => rfl
  | cons m rest ih =>
    have hm : m.1 ≠ u := h m (List.mem_cons_self m rest)
    have hrest : ∀ x ∈ rest, x.1 ≠ u := fun x hx => h x (List.mem_cons_of_mem m hx)
    show applyMoves (changeNodePartFn part m.1 m.2.1 m.2.2) rest u = part u
    rw [ih _ hrest]
    simp only [changeNodePartFn]
    rw [if_neg]
    rintro ⟨h1, -⟩
    exact hm h1.symm

/-- Every copy-back move concerns a node below `n`. -/
theorem copyBackMoves_node_lt (part : ℕ → ℕ) (n block : ℕ) (mapping rbPart : ℕ → ℕ)
    (m : ℕ × ℕ × ℕ) (hm : m ∈ copyBackMoves part n block mapping rbPart) : m.1 < n := by
  simp only [copyBackMoves, List.mem_filterMap, List.mem_range] at hm
  obtain ⟨a, ha, hfa⟩ := hm
  by_cases h1 : part a = block
  · rw [if_pos h1] at hfa
    by_cases h2 : block ≠ block + rbPart (mapping a)
    · rw [if_pos h2] at hfa
      cases hfa
      exact ha
    · rw [if_neg h2] at hfa
      cases hfa
  · rw [if_neg h1] at hfa
    cases hfa

/-- Pointwise characterisation of the copy-back phase: node `v` ends in
block `block + rbPart (mapping v)` exactly when it is below `n`, currently
in `block`, and the offset is non-zero; every other node keeps its
block. -/
theorem applyMoves_copyBackMoves (part : ℕ → ℕ) (n block : ℕ)
    (mapping rbPart : ℕ → ℕ) (v : ℕ) :
    applyMoves part (copyBackMoves part n block mapping rbPart) v =
      if v < n ∧ part v = block ∧ rbPart (mapping v) ≠ 0 then
        block + rbPart (mapping v)
      else part v := by
  induction n with
  | zero =>
    rw [if_neg (by omega)]
    rfl
  | succ n ih =>
    have hsplit : copyBackMoves part (n + 1) block mapping rbPart =
        copyBackMoves part n block mapping rbPart ++
          (if part n = block then
            if block ≠ block + rbPart (mapping n) then
              [(n, block, block + rbPart (mapping n))]
            else []
          else []) := by
      simp only [copyBackMoves, List.range_succ, List.filterMap_append]
      congr 1
      by_cases h1 : part n = block
      · by_cases h2 : block ≠ block + rbPart (mapping n)
        · rw [List.filterMap_cons_some (by rw [if_pos h1, if_pos h2]),
            List.filterMap_nil, if_pos h1, if_pos h2]
        · rw [List.filterMap_cons_none (by rw [if_pos h1, if_neg h2]),
            List.filterMap_nil, if_pos h1, if_neg h2]
      · rw [List.filterMap_cons_none (by rw [if_neg h1]),
          List.filterMap_nil, if_neg h1]
    rw [hsplit, applyMoves_append]
    by_cases hv : v = n
    · subst hv
      have hq : applyMoves part (copyBackMoves part v block mapping rbPart) v = part v :=
        applyMoves_of_ne _ _ _ (fun m hm =>
          Nat.ne_of_lt (copyBackMoves_node_lt part v block mapping rbPart m hm))
      by_cases h1 : part v = block
      · by_cases h2 : block ≠ block + rbPart (mapping v)
        · rw [if_pos h1, if_pos h2, if_pos (show v < v + 1 ∧ part v = block ∧
            rbPart (mapping v) ≠ 0 from ⟨by omega, h1, by omega⟩)]
          show (if v = v ∧ applyMoves part (copyBackMoves part v block mapping rbPart) v
              = block then block + rbPart (mapping v) else
              applyMoves part (copyBackMoves part v block mapping rbPart) v) =
            block + rbPart (mapping v)
          rw [hq, if_pos ⟨rfl, h1⟩]
        · rw [if_pos h1, if_neg h2, if_neg (show ¬(v < v + 1 ∧ part v = block ∧
            rbPart (mapping v) ≠ 0) by omega)]
          exact hq
      · rw [if_neg h1, if_neg (show ¬(v < v + 1 ∧ part v = block ∧
          rbPart (mapping v) ≠ 0) from fun h => h1 h.2.1)]
        exact hq
    · have hB : ∀ m ∈ (if part n = block then
          if block ≠ block + rbPart (mapping n) then
            [(n, block, block + rbPart (mapping n))]
          else ([] : List (ℕ × ℕ × ℕ))
        else []), m.1 ≠ v := by
        intro m hm
        by_cases h1 : part n = block
        · by_cases h2 : block ≠ block + rbPart (mapping n)
          · rw [if_pos h1, if_pos h2] at hm
            rw [List.mem_singleton] at hm
            subst hm
            exact fun h => hv h.symm
          · rw [if_pos h1, if_neg h2] at hm
            cases hm
        · rw [if_neg h1] at hm
          cases hm
      rw [applyMoves_of_ne _ _ _ hB, ih]
      have hiff : (v < n ∧ part v = block ∧ rbPart (mapping v) ≠ 0) ↔
          (v < n + 1 ∧ part v = block ∧ rbPart (mapping v) ≠ 0) := by
        constructor
        · rintro ⟨ha, hb, hc⟩
          exact ⟨by omega, hb, hc⟩
        · rintro ⟨ha, hb, hc⟩
          exact ⟨by omega, hb, hc⟩
      rw [if_congr hiff rfl rfl]

/-- C3: `recursively_bipartition_block` extracts with `cut_net_splitting`
true exactly when the objective is `km1`, recurses with `k1 - k0` blocks,
and (when the extracted sub-hypergraph is non-empty) issues exactly the
calls `changeNodePart(v, block, block + rbPart (mapping v))` for those
nodes `v < n` currently in `block` whose target differs from `block`. -/
theorem recursively_bipartition_block_spec (part : ℕ → ℕ) (n : ℕ)
    (objective : Objective) (block k0 k1 : ℕ) (mapping : ℕ → ℕ)
    (numSubNodes : ℕ) (rbPart : ℕ → ℕ) (hsub : 0 < numSubNodes) :
    ((recursively_bipartition_block part n objective block k0 k1 mapping
        numSubNodes rbPart).cutNetSplitting = true ↔ objective = Objective.km1) ∧
    (recursively_bipartition_block part n objective block k0 k1 mapping
        numSubNodes rbPart).subK = k1 - k0 ∧
    (recursively_bipartition_block part n objective block k0 k1 mapping
        numSubNodes rbPart).recursed = true ∧
    (∀ v f t : ℕ,
      (v, f, t) ∈ (recursively_bipartition_block part n objective block k0 k1
          mapping numSubNodes rbPart).moves ↔
        (v < n ∧ part v = block ∧ f = block ∧
          t = block + rbPart (mapping v) ∧ t ≠ block)) := by
  refine ⟨?_, ?_, ?_, fun v f t => ?_⟩
  · rw [show (recursively_bipartition_block part n objective block k0 k1 mapping
      numSubNodes rbPart).cutNetSplitting = decide (objective = Objective.km1) from by
        unfold recursively_bipartition_block
        rw [if_pos hsub]]
    exact decide_eq_true_iff
  · unfold recursively_bipartition_block
    rw [if_pos hsub]
  · unfold recursively_bipartition_block
    rw [if_pos hsub]
  · rw [show (recursively_bipartition_block part n objective block k0 k1 mapping
      numSubNodes rbPart).moves = copyBackMoves part n block mapping rbPart from by
        unfold recursively_bipartition_block
        rw [if_pos hsub]]
    simp only [copyBackMoves, List.mem_filterMap, List.mem_range]
    constructor
    · rintro ⟨a, ha, hfa⟩
      by_cases h1 : part a = block
      · rw [if_pos h1] at hfa
        by_cases h2 : block ≠ block + rbPart (mapping a)
        · rw [if_pos h2] at hfa
          obtain ⟨rfl, rfl, rfl⟩ : a = v ∧ block = f ∧ block + rbPart (mapping a) = t := by
            simpa using hfa
          exact ⟨ha, h1, rfl, rfl, fun h => h2 h.symm⟩
        · rw [if_neg h2] at hfa
          cases hfa
      · rw [if_neg h1] at hfa
        cases hfa
    · rintro ⟨hv, h1, rfl, rfl, hne⟩
      exact ⟨v, hv, by rw [if_pos h1, if_pos (fun h => hne h.symm)]⟩

/-- Witness for C3: `n = 2`, `block = 1`, node `0` in block `1`, the
sub-partition moving it to offset `1`: the single move `(0, 1, 2)` is
issued. -/
theorem recursively_bipartition_block_spec_witness :
    (0 : ℕ) < 1 ∧
    (0, 1, 2) ∈ (recursively_bipartition_block
      (fun v => if v = 0 then 1 else 0) 2 Objective.km1 1 0 2 (fun v => v) 1
      (fun v => if v = 0 then 1 else 0)).moves := by
  refine ⟨by decide, ?_⟩
  have h := recursively_bipartition_block_spec
    (fun v => if v = 0 then 1 else 0) 2 Objective.km1 1 0 2 (fun v => v) 1
    (fun v => if v = 0 then 1 else 0) (by decide)
  exact (h.2.2.2 0 1 2).mpr (by refine ⟨by decide, by decide, rfl, by decide, by decide⟩)

/-- C10 (frame property): `recursively_bipartition_block` never moves a
node whose current block differs from `block`; any node it does move goes
to a block `≥ block`; and when the extracted sub-hypergraph is empty it
performs no recursion, issues no `changeNodePart` call, and leaves the
parent partition unchanged. -/
theorem recursively_bipartition_block_frame (part : ℕ → ℕ) (n : ℕ)
    (objective : Objective) (block k0 k1 : ℕ) (mapping : ℕ → ℕ)
    (numSubNodes : ℕ) (rbPart : ℕ → ℕ) :
    (∀ v, part v ≠ block →
      (recursively_bipartition_block part n objective block k0 k1 mapping
        numSubNodes rbPart).newPart v = part v) ∧
    (∀ v, (recursively_bipartition_block part n objective block k0 k1 mapping
        numSubNodes rbPart).newPart v ≠ part v →
      block ≤ (recursively_bipartition_block part n objective block k0 k1 mapping
        numSubNodes rbPart).newPart v) ∧
    (numSubNodes = 0 →
      (recursively_bipartition_block part n objective block k0 k1 mapping
        numSubNodes rbPart).recursed = false ∧
      (recursively_bipartition_block part n objective block k0 k1 mapping
        numSubNodes rbPart).moves = [] ∧
      ∀ v, (recursively_bipartition_block part n objective block k0 k1 mapping
        numSubNodes rbPart).newPart v = part v) := by
  by_cases hsub : 0 < numSubNodes
  · have hnew : (recursively_bipartition_block part n objective block k0 k1 mapping
        numSubNodes rbPart).newPart =
        applyMoves part (copyBackMoves part n block mapping rbPart) := by
      unfold recursively_bipartition_block
      rw [if_pos hsub]
    refine ⟨fun v hv => ?_, fun v hv => ?_, fun h0 => absurd h0 (by omega)⟩
    · rw [hnew, applyMoves_copyBackMoves, if_neg (fun h => hv h.2.1)]
    · rw [hnew, applyMoves_copyBackMoves] at hv ⊢
      by_cases hc : v < n ∧ part v = block ∧ rbPart (mapping v) ≠ 0
      · rw [if_pos hc]
        omega
      · rw [if_neg hc] at hv
        exact absurd rfl hv
  · have he : recursively_bipartition_block part n objective block k0 k1 mapping
        numSubNodes rbPart =
        { cutNetSplitting := decide (objective = Objective.km1)
          subK := k1 - k0
          recursed := false
          moves := []
          newPart := part } := by
      unfold recursively_bipartition_block
      rw [if_neg hsub]
    rw [he]
    exact ⟨fun v _ => rfl, fun v hv => absurd rfl hv, fun _ => ⟨rfl, rfl, fun v => rfl⟩⟩

/-- Witness for C10 at a concrete instance with an empty sub-hypergraph:
nothing changes. -/
theorem recursively_bipartition_block_frame_witness :
    (recursively_bipartition_block (fun v => v) 3 Objective.cut 1 0 2
      (fun v => v) 0 (fun v => v)).newPart 2 = 2 ∧
    (recursively_bipartition_block (fun v => v) 3 Objective.cut 1 0 2
      (fun v => v) 0 (fun v => v)).moves = [] := by
  have h := recursively_bipartition_block_frame (fun v => v) 3 Objective.cut 1 0 2
    (fun v => v) 0 (fun v => v)
  exact ⟨h.1 2 (by decide), (h.2.2 rfl).2.1⟩

/-- C5 (divergence of the two `Clustering::compactify` paths, at the input
vector `[1, 0]` with the default upper id bound): the sequential path
relabels by first occurrence, giving `[0, 1]` with cluster count `2`,
while the parallel path relabels every entry by its prefix-sum rank over
the presence bitmap, giving `[2, 1]` — a different vector.  The final
conjunct shows the divergence is not an artifact of the chosen prefix-sum
convention: no relabelling `g` applied pointwise to the entry values (the
shape of the parallel write-back `c = mapping[c]`, for any scan
convention) can reproduce the sequential result on both `[1, 0]` and
`[0, 1]`, because first-occurrence order depends on the position of the
values, not only on their set. -/
theorem compactify_paths_diverge :
    sequentialCompactify [1, 0] = ([0, 1], 2) ∧
    compactify [1, 0] (-1) 2 = ([2, 1], 2) ∧
    compactify [1, 0] (-1) 2 ≠ compactify [1, 0] (-1) 1 ∧
    (∀ g : ℕ → ℕ,
      ¬(List.map g [1, 0] = (sequentialCompactify [1, 0]).1 ∧
        List.map g [0, 1] = (sequentialCompactify [0, 1]).1)) := by
  refine ⟨by decide, by decide, by decide, fun g => ?_⟩
  rintro ⟨h1, h2⟩
  have e1 : (sequentialCompactify [1, 0]).1 = [0, 1] := by decide
  have e2 : (sequentialCompactify [0, 1]).1 = [0, 1] := by decide
  rw [e1] at h1
  rw [e2] at h2
  simp only [List.map, List.cons.injEq] at h1 h2
  omega

/-- Closed form of the `ProcessGraph::index` loop from an arbitrary loop
state. -/
theorem pgIndexLoop_go (k : ℕ) (l : List ℕ) (i m : ℕ) (lb : Option ℕ) :
    l.foldl (fun st b => (st.1 + st.2.1 * b, st.2.1 * k, some b)) (i, m, lb) =
      (i + m * mixedRadixVal k l, m * k ^ l.length,
        match l.getLast? with
        | none => lb
        | some b => some b) := by
  induction l generalizing i m lb with
  | nil => simp [mixedRadixVal]
  | cons c cs ih =>
    rw [List.foldl_cons, ih]
    refine Prod.ext ?_ (Prod.ext ?_ ?_)
    · show i + m * c + m * k * mixedRadixVal k cs = i + m * mixedRadixVal k (c :: cs)
      show _ = i + m * (c + k * mixedRadixVal k cs)
      ring
    · show m * k * k ^ cs.length = m * k ^ (c :: cs).length
      rw [List.length_cons, pow_succ]
      ring
    · cases cs with
      | nil => rfl
      | cons d ds => rfl

/-- First component of the `ProcessGraph::index` loop state. -/
theorem pgIndexLoop_fst (k : ℕ) (l : List ℕ) :
    (pgIndexLoop k l).1 = mixedRadixVal k l := by
  unfold pgIndexLoop
  rw [pgIndexLoop_go]
  show 0 + 1 * mixedRadixVal k l = _
  omega

/-- Final multiplier of the `ProcessGraph::index` loop. -/
theorem pgIndexLoop_mult (k : ℕ) (l : List ℕ) :
    (pgIndexLoop k l).2.1 = k ^ l.length := by
  unfold pgIndexLoop
  rw [pgIndexLoop_go]
  exact one_mul _

/-- Final `last_block` of the `ProcessGraph::index` loop. -/
theorem pgIndexLoop_last (k : ℕ) (l : List ℕ) :
    (pgIndexLoop k l).2.2 = l.getLast? := by
  unfold pgIndexLoop
  rw [pgIndexLoop_go]
  show (match l.getLast? with
    | none => none
    | some b => some b) = l.getLast?
  cases l.getLast? with
  | none => rfl
  | some b => rfl

/-- `pgIndex` in terms of the mixed-radix value: the correction term
`last · k` is added exactly for singleton sets (when `k ≥ 2`). -/
theorem pgIndex_eq_mixedRadixVal (k : ℕ) (hk : 2 ≤ k) (l : List ℕ) :
    pgIndex k l = mixedRadixVal k l +
      (if l.length = 1 then l.headD 0 * k else 0) := by
  unfold pgIndex
  rw [pgIndexLoop_fst, pgIndexLoop_mult, pgIndexLoop_last]
  by_cases hlen : l.length = 1
  · obtain ⟨a, rfl⟩ := List.length_eq_one.mp hlen
    simp
  · rw [if_neg hlen, if_neg (fun h : k ^ l.length = k =>
      hlen (Nat.pow_right_injective hk (h.trans (pow_one k).symm)))]

/-- A digit list whose last digit is positive has positive mixed-radix
value. -/
theorem mixedRadixVal_pos (k : ℕ) (hk : 0 < k) :
    ∀ l : List ℕ, l ≠ [] → (∀ d, l.getLast? = some d → 0 < d) →
      0 < mixedRadixVal k l := by
  intro l
  induction l with
  | nil => intro h; exact absurd rfl h
  | cons c cs ih =>
    intro _ hlast
    cases cs with
    | nil =>
      have : 0 < c := hlast c rfl
      show 0 < c + k * mixedRadixVal k []
      show 0 < c + k * 0
      omega
    | cons d ds =>
      have htail : 0 < mixedRadixVal k (d :: ds) :=
        ih (by simp) (fun x hx => hlast x (by rw [List.getLast?_cons_cons]; exact hx))
      show 0 < c + k * mixedRadixVal k (d :: ds)
      have : 0 < k * mixedRadixVal k (d :: ds) := Nat.mul_pos hk htail
      omega

/-- The mixed-radix value is at least the first digit. -/
theorem mixedRadixVal_head_le (k c : ℕ) (cs : List ℕ) :
    c ≤ mixedRadixVal k (c :: cs) := by
  show c ≤ c + k * mixedRadixVal k cs
  omega

/-- Uniqueness of base-`k` digit expansions among digit lists with digits
below `k` whose last digit is positive. -/
theorem mixedRadixVal_inj (k : ℕ) (hk : 0 < k) :
    ∀ l₁ l₂ : List ℕ, (∀ x ∈ l₁, x < k) → (∀ x ∈ l₂, x < k) →
      (∀ d, l₁.getLast? = some d → 0 < d) → (∀ d, l₂.getLast? = some d → 0 < d) →
      mixedRadixVal k l₁ = mixedRadixVal k l₂ → l₁ = l₂ := by
  intro l₁
  induction l₁ with
  | nil =>
    intro l₂ _ hb2 _ hp2 hval
    cases l₂ with
    | nil => rfl
    | cons d ds =>
      exact absurd hval.symm
        (Nat.ne_of_gt (mixedRadixVal_pos k hk (d :: ds) (by simp) hp2))
  | cons c cs ih =>
    intro l₂ hb1 hb2 hp1 hp2 hval
    cases l₂ with
    | nil =>
      exact absurd hval
        (Nat.ne_of_gt (mixedRadixVal_pos k hk (c :: cs) (by simp) hp1))
    | cons d ds =>
      have hc : c < k := hb1 c (by simp)
      have hd : d < k := hb2 d (by simp)
      have hval' : c + k * mixedRadixVal k cs = d + k * mixedRadixVal k ds := hval
      have hmod : c = d := by
        have h1 : (c + k * mixedRadixVal k cs) % k = c := by
          rw [Nat.add_mul_mod_self_left, Nat.mod_eq_of_lt hc]
        have h2 : (d + k * mixedRadixVal k ds) % k = d := by
          rw [Nat.add_mul_mod_self_left, Nat.mod_eq_of_lt hd]
        rw [← h1, ← h2, hval']
      have hdiv : mixedRadixVal k cs = mixedRadixVal k ds := by
        have h1 : (c + k * mixedRadixVal k cs) / k = mixedRadixVal k cs := by
          rw [Nat.add_mul_div_left _ _ hk, Nat.div_eq_of_lt hc, Nat.zero_add]
        have h2 : (d + k * mixedRadixVal k ds) / k = mixedRadixVal k ds := by
          rw [Nat.add_mul_div_left _ _ hk, Nat.div_eq_of_lt hd, Nat.zero_add]
        rw [← h1, ← h2, hval']
      have htails : cs = ds := by
        refine ih ds (fun x hx => hb1 x (by simp [hx]))
          (fun x hx => hb2 x (by simp [hx])) ?_ ?_ hdiv
        · intro e he
          cases cs with
          | nil => cases he
          | cons c2 cs2 => exact hp1 e (by rw [List.getLast?_cons_cons]; exact he)
        · intro e he
          cases ds with
          | nil => cases he
          | cons d2 ds2 => exact hp2 e (by rw [List.getLast?_cons_cons]; exact he)
      rw [hmod, htails]

/-- A strictly increasing list of naturals of length at least two has a
positive last element. -/
theorem chain_lt_getLast_pos :
    ∀ l : List ℕ, List.Chain' (· < ·) l → 2 ≤ l.length →
      ∀ d, l.getLast? = some d → 0 < d := by
  intro l
  induction l with
  | nil =>
    intro _ h d hd
    simp at h
  | cons a tail ih =>
    intro hchain hlen d hd
    cases tail with
    | nil => simp at hlen
    | cons b rest =>
      cases rest with
      | nil =>
        rw [List.getLast?_cons_cons] at hd
        have hab : a < b := List.chain'_cons.mp hchain |>.1
        have : d = b := by
          simp only [List.getLast?_singleton, Option.some_inj] at hd
          exact hd.symm
        omega
      | cons e rest2 =>
        rw [List.getLast?_cons_cons] at hd
        exact ih (List.chain'_cons.mp hchain).2 (by simp) d hd

/-- C7: for `k ≥ 2` and non-empty sorted connectivity sets with members
below `k`, `ProcessGraph::index` computes `Σᵢ cᵢ · k^i` over the sorted
members plus an extra `last · k` term exactly when the set is a singleton,
and this encoding is injective on non-empty sets (hence also on sets of
size at most `max_precomputed_connectivity`). -/
theorem pgIndex_spec (k : ℕ) (hk : 2 ≤ k) (l₁ l₂ : List ℕ)
    (hc1 : List.Chain' (· < ·) l₁) (hb1 : ∀ x ∈ l₁, x < k) (hne1 : l₁ ≠ [])
    (hc2 : List.Chain' (· < ·) l₂) (hb2 : ∀ x ∈ l₂, x < k) (hne2 : l₂ ≠ []) :
    pgIndex k l₁ = mixedRadixVal k l₁ +
      (if l₁.length = 1 then l₁.headD 0 * k else 0) ∧
    (pgIndex k l₁ = pgIndex k l₂ → l₁ = l₂) := by
  have hk0 : 0 < k := by omega
  refine ⟨pgIndex_eq_mixedRadixVal k hk l₁, fun heq => ?_⟩
  rw [pgIndex_eq_mixedRadixVal k hk l₁, pgIndex_eq_mixedRadixVal k hk l₂] at heq
  have key : ∀ a : ℕ, ∀ m : List ℕ, a < k → List.Chain' (· < ·) m →
      (∀ x ∈ m, x < k) → 2 ≤ m.length →
      a + a * k ≠ mixedRadixVal k m := by
    intro a m ha hcm hbm hlm habs
    obtain ⟨c, cs, rfl⟩ : ∃ c cs, m = c :: cs := by
      cases m with
      | nil => simp at hlm
      | cons c cs => exact ⟨c, cs, rfl⟩
    obtain ⟨e, es, rfl⟩ : ∃ e es, cs = e :: es := by
      cases cs with
      | nil => simp at hlm
      | cons e es => exact ⟨e, es, rfl⟩
    have hc : c < k := hbm c (by simp)
    have hval : a + a * k = c + k * mixedRadixVal k (e :: es) := habs
    have hac : a = c := by
      have h1 : (a + a * k) % k = a := by
        rw [Nat.add_mul_mod_self_right, Nat.mod_eq_of_lt ha]
      have h2 : (c + k * mixedRadixVal k (e :: es)) % k = c := by
        rw [Nat.add_mul_mod_self_left, Nat.mod_eq_of_lt hc]
      rw [← h1, ← h2, hval]
    have haval : a = mixedRadixVal k (e :: es) := by
      have h1 : (a + a * k) / k = a := by
        rw [Nat.add_mul_div_right _ _ hk0, Nat.div_eq_of_lt ha, Nat.zero_add]
      have h2 : (c + k * mixedRadixVal k (e :: es)) / k = mixedRadixVal k (e :: es) := by
        rw [Nat.add_mul_div_left _ _ hk0, Nat.div_eq_of_lt hc, Nat.zero_add]
      rw [← h1, ← h2, hval]
    have hce : c < e := (List.chain'_cons.mp hcm).1
    have : e ≤ mixedRadixVal k (e :: es) := mixedRadixVal_head_le k e es
    omega
  by_cases h1 : l₁.length = 1
  · obtain ⟨a, rfl⟩ := List.length_eq_one.mp h1
    by_cases h2 : l₂.length = 1
    · obtain ⟨b, rfl⟩ := List.length_eq_one.mp h2
      have ha : mixedRadixVal k [a] = a := by
        show a + k * mixedRadixVal k [] = a
        show a + k * 0 = a
        omega
      have hb : mixedRadixVal k [b] = b := by
        show b + k * mixedRadixVal k [] = b
        show b + k * 0 = b
        omega
      rw [if_pos (List.length_singleton a), if_pos (List.length_singleton b),
        ha, hb] at heq
      simp only [List.headD_cons] at heq
      have hab : a = b := by
        rcases Nat.lt_trichotomy a b with h | h | h
        · have : a * k ≤ b * k := Nat.mul_le_mul_right k (le_of_lt h)
          omega
        · exact h
        · have : b * k ≤ a * k := Nat.mul_le_mul_right k (le_of_lt h)
          omega
      rw [hab]
    · have hlen2 : 2 ≤ l₂.length := by
        cases l₂ with
        | nil => exact absurd rfl hne2
        | cons x xs =>
          cases xs with
          | nil => exact absurd rfl h2
          | cons y ys => simp
      have ha : mixedRadixVal k [a] = a := by
        show a + k * 0 = a
        omega
      rw [if_pos (List.length_singleton a), if_neg h2, Nat.add_zero, ha] at heq
      simp only [List.headD_cons] at heq
      exact absurd heq (key a l₂ (hb1 a (by simp)) hc2 hb2 hlen2)
  · by_cases h2 : l₂.length = 1
    · obtain ⟨b, rfl⟩ := List.length_eq_one.mp h2
      have hlen1 : 2 ≤ l₁.length := by
        cases l₁ with
        | nil => exact absurd rfl hne1
        | cons x xs =>
          cases xs with
          | nil => exact absurd rfl h1
          | cons y ys => simp
      have hb : mixedRadixVal k [b] = b := by
        show b + k * 0 = b
        omega
      rw [if_neg h1, if_pos (List.length_singleton b), Nat.add_zero, hb] at heq
      simp only [List.headD_cons] at heq
      exact absurd heq.symm (key b l₁ (hb2 b (by simp)) hc1 hb1 hlen1)
    · rw [if_neg h1, if_neg h2, Nat.add_zero, Nat.add_zero] at heq
      have hlen1 : 2 ≤ l₁.length := by
        cases l₁ with
        | nil => exact absurd rfl hne1
        | cons x xs =>
          cases xs with
          | nil => exact absurd rfl h1
          | cons y ys => simp
      have hlen2 : 2 ≤ l₂.length := by
        cases l₂ with
        | nil => exact absurd rfl hne2
        | cons x xs =>
          cases xs with
          | nil => exact absurd rfl h2
          | cons y ys => simp
      exact mixedRadixVal_inj k hk0 l₁ l₂ hb1 hb2
        (chain_lt_getLast_pos l₁ hc1 hlen1) (chain_lt_getLast_pos l₂ hc2 hlen2) heq

/-- Witness for C7 at `k = 4` and the concrete sets `{1, 3}` and `{2}`. -/
theorem pgIndex_spec_witness :
    pgIndex 4 [1, 3] = mixedRadixVal 4 [1, 3] +
      (if ([1, 3] : List ℕ).length = 1 then ([1, 3] : List ℕ).headD 0 * 4 else 0) ∧
    (pgIndex 4 [1, 3] = pgIndex 4 [2] → [1, 3] = [2]) := by
  have h := pgIndex_spec 4 (by norm_num) [1, 3] [2]
    (List.chain'_cons.mpr ⟨by norm_num, List.chain'_singleton 3⟩) (by decide)
    (by decide) (List.chain'_singleton 2) (by decide) (by decide)
  exact ⟨h.1, h.2⟩

/-- The counter updates do not touch the `part` array. -/
theorem wonUpdate_part (w : ℕ → ℤ) (v f t : ℕ) (j : ℕ) (g : PHGState) :
    (wonUpdate w v f t j g).part = g.part := by
  rcases j with _ | _ | _ | _ | j <;> rfl

/-- After a winning CAS, `part[v]` holds the winner's target block
throughout its update phase. -/
theorem wonState_part (w : ℕ → ℤ) (v f t : ℕ) (g0 : PHGState) (j : ℕ) :
    (wonState w v f t g0 j).part v = t := by
  induction j with
  | zero =>
    show (setPart v t g0).part v = t
    simp [setPart]
  | succ j ih =>
    show (wonUpdate w v f t j (wonState w v f t g0 j)).part v = t
    rw [wonUpdate_part]
    exact ih

/-- The state after the full update phase of the winner is exactly the
post-state of the move executed alone. -/
theorem wonState_four (w : ℕ → ℤ) (v f t : ℕ) (g0 : PHGState)
    (hpart : g0.part v = f) :
    wonState w v f t g0 4 = (changeNodePartAtomic w v f t g0).2 := by
  unfold changeNodePartAtomic
  rw [if_pos hpart]
  rfl

/-- One scheduler step preserves the race invariant (for target blocks
distinct from the source block). -/
theorem raceInv_step (w : ℕ → ℤ) (v f t1 t2 : ℕ) (g0 : PHGState)
    (hpart : g0.part v = f) (hf1 : t1 ≠ f) (hf2 : t2 ≠ f)
    (c : TwoThreadConfig) (hc : raceInv w v f t1 t2 g0 c) (i : Bool) :
    raceInv w v f t1 t2 g0 (twoThreadStep w v f t1 t2 c i) := by
  obtain ⟨g, s1, s2⟩ := c
  rcases hc with ⟨hg, hs1, hs2⟩ | ⟨j, hj, hs1, hs2, hg⟩ | ⟨j, hj, hs2, hs1, hg⟩
  · subst hs1
    subst hs2
    rw [show g = g0 from hg]
    cases i
    · have e : tStep w v f t2 g0 TStat.ready = (setPart v t2 g0, TStat.won 0) := by
        simp [tStep, hpart]
      show raceInv w v f t1 t2 g0
        ⟨(tStep w v f t2 g0 TStat.ready).1, TStat.ready, (tStep w v f t2 g0 TStat.ready).2⟩
      rw [e]
      exact Or.inr (Or.inr ⟨0, by omega, rfl, Or.inl rfl, rfl⟩)
    · have e : tStep w v f t1 g0 TStat.ready = (setPart v t1 g0, TStat.won 0) := by
        simp [tStep, hpart]
      show raceInv w v f t1 t2 g0
        ⟨(tStep w v f t1 g0 TStat.ready).1, (tStep w v f t1 g0 TStat.ready).2, TStat.ready⟩
      rw [e]
      exact Or.inr (Or.inl ⟨0, by omega, rfl, Or.inl rfl, rfl⟩)
  · subst hg
    subst hs1
    cases i
    · rcases hs2 with hs2 | hs2 <;> subst hs2
      · have hp := wonState_part w v f t1 g0 j
        have e : tStep w v f t2 (wonState w v f t1 g0 j) TStat.ready =
            (wonState w v f t1 g0 j, TStat.lost) := by
          simp [tStep, hp, hf1]
        show raceInv w v f t1 t2 g0
          ⟨(tStep w v f t2 (wonState w v f t1 g0 j) TStat.ready).1, TStat.won j,
           (tStep w v f t2 (wonState w v f t1 g0 j) TStat.ready).2⟩
        rw [e]
        exact Or.inr (Or.inl ⟨j, hj, rfl, Or.inr rfl, rfl⟩)
      · exact Or.inr (Or.inl ⟨j, hj, rfl, Or.inr rfl, rfl⟩)
    · rcases j with _ | _ | _ | _ | j
      · exact Or.inr (Or.inl ⟨1, by omega, rfl, hs2, rfl⟩)
      · exact Or.inr (Or.inl ⟨2, by omega, rfl, hs2, rfl⟩)
      · exact Or.inr (Or.inl ⟨3, by omega, rfl, hs2, rfl⟩)
      · exact Or.inr (Or.inl ⟨4, by omega, rfl, hs2, rfl⟩)
      · obtain rfl : j = 0 := by omega
        exact Or.inr (Or.inl ⟨4, by omega, rfl, hs2, rfl⟩)
  · subst hg
    subst hs2
    cases i
    · rcases j with _ | _ | _ | _ | j
      · exact Or.inr (Or.inr ⟨1, by omega, rfl, hs1, rfl⟩)
      · exact Or.inr (Or.inr ⟨2, by omega, rfl, hs1, rfl⟩)
      · exact Or.inr (Or.inr ⟨3, by omega, rfl, hs1, rfl⟩)
      · exact Or.inr (Or.inr ⟨4, by omega, rfl, hs1, rfl⟩)
      · obtain rfl : j = 0 := by omega
        exact Or.inr (Or.inr ⟨4, by omega, rfl, hs1, rfl⟩)
    · rcases hs1 with hs1 | hs1 <;> subst hs1
      · have hp := wonState_part w v f t2 g0 j
        have e : tStep w v f t1 (wonState w v f t2 g0 j) TStat.ready =
            (wonState w v f t2 g0 j, TStat.lost) := by
          simp [tStep, hp, hf2]
        show raceInv w v f t1 t2 g0
          ⟨(tStep w v f t1 (wonState w v f t2 g0 j) TStat.ready).1,
           (tStep w v f t1 (wonState w v f t2 g0 j) TStat.ready).2, TStat.won j⟩
        rw [e]
        exact Or.inr (Or.inr ⟨j, hj, rfl, Or.inr rfl, rfl⟩)
      · exact Or.inr (Or.inr ⟨j, hj, rfl, Or.inr rfl, rfl⟩)

/-- The race invariant holds after any interleaving. -/
theorem raceInv_run (w : ℕ → ℤ) (v f t1 t2 : ℕ) (g0 : PHGState)
    (hpart : g0.part v = f) (hf1 : t1 ≠ f) (hf2 : t2 ≠ f)
    (sched : List Bool) (c : TwoThreadConfig) (hc : raceInv w v f t1 t2 g0 c) :
    raceInv w v f t1 t2 g0 (runSched w v f t1 t2 sched c) := by
  induction sched generalizing c with
  | nil => exact hc
  | cons i rest ih =>
    exact ih _ (raceInv_step w v f t1 t2 g0 hpart hf1 hf2 c hc i)

/-- C6 (amended): two concurrent `changeNodePart(v, f, t1)` and
`changeNodePart(v, f, t2)` with `f`, `t1`, `t2` pairwise distinct, under
every complete interleaving of their atomic actions, finish with exactly
one call returning `true` (`won 4`) and one returning `false` (`lost`),
and the shared post-state (part assignment, part weights, part sizes)
equals the winning move applied alone. -/
theorem changeNodePart_race (w : ℕ → ℤ) (g0 : PHGState) (v f t1 t2 : ℕ)
    (hpart : g0.part v = f) (hf1 : t1 ≠ f) (hf2 : t2 ≠ f) (_h12 : t1 ≠ t2)
    (sched : List Bool)
    (hdone : bothFinished (runSched w v f t1 t2 sched ⟨g0, TStat.ready, TStat.ready⟩)) :
    ((runSched w v f t1 t2 sched ⟨g0, TStat.ready, TStat.ready⟩).s1 = TStat.won 4 ∧
     (runSched w v f t1 t2 sched ⟨g0, TStat.ready, TStat.ready⟩).s2 = TStat.lost ∧
     (runSched w v f t1 t2 sched ⟨g0, TStat.ready, TStat.ready⟩).g =
       (changeNodePartAtomic w v f t1 g0).2) ∨
    ((runSched w v f t1 t2 sched ⟨g0, TStat.ready, TStat.ready⟩).s2 = TStat.won 4 ∧
     (runSched w v f t1 t2 sched ⟨g0, TStat.ready, TStat.ready⟩).s1 = TStat.lost ∧
     (runSched w v f t1 t2 sched ⟨g0, TStat.ready, TStat.ready⟩).g =
       (changeNodePartAtomic w v f t2 g0).2) := by
  have hinv := raceInv_run w v f t1 t2 g0 hpart hf1 hf2 sched
    ⟨g0, TStat.ready, TStat.ready⟩ (Or.inl ⟨rfl, rfl, rfl⟩)
  obtain ⟨hd1, hd2⟩ := hdone
  rcases hinv with ⟨-, hs1, -⟩ | ⟨j, hj, hs1, hs2, hg⟩ | ⟨j, hj, hs2, hs1, hg⟩
  · rw [hs1] at hd1
    simp only [finishedStat] at hd1
    rcases hd1 with h | h <;> exact TStat.noConfusion h
  · have hj4 : j = 4 := by
      rw [hs1] at hd1
      simp only [finishedStat] at hd1
      rcases hd1 with h | h
      · exact TStat.noConfusion h
      · exact TStat.won.inj h
    subst hj4
    have hlost : (runSched w v f t1 t2 sched ⟨g0, TStat.ready, TStat.ready⟩).s2 =
        TStat.lost := by
      rcases hs2 with h | h
      · rw [h] at hd2
        simp only [finishedStat] at hd2
        rcases hd2 with h2 | h2 <;> exact TStat.noConfusion h2
      · exact h
    exact Or.inl ⟨hs1, hlost, by rw [hg, wonState_four w v f t1 g0 hpart]⟩
  · have hj4 : j = 4 := by
      rw [hs2] at hd2
      simp only [finishedStat] at hd2
      rcases hd2 with h | h
      · exact TStat.noConfusion h
      · exact TStat.won.inj h
    subst hj4
    have hlost : (runSched w v f t1 t2 sched ⟨g0, TStat.ready, TStat.ready⟩).s1 =
        TStat.lost := by
      rcases hs1 with h | h
      · rw [h] at hd1
        simp only [finishedStat] at hd1
        rcases hd1 with h2 | h2 <;> exact TStat.noConfusion h2
      · exact h
    exact Or.inr ⟨hs2, hlost, by rw [hg, wonState_four w v f t2 g0 hpart]⟩

/-- Witness for C6: concrete race `changeNodePart(0, 0, 1)` against
`changeNodePart(0, 0, 2)` under the schedule in which thread 1 runs to
completion first and thread 2 then executes its failing CAS. -/
theorem changeNodePart_race_witness :
    ((runSched (fun _ => 1) 0 0 1 2 [true, true, true, true, true, false]
       ⟨⟨fun _ => 0, fun _ => 0, fun _ => 0⟩, TStat.ready, TStat.ready⟩).s1 = TStat.won 4 ∧
     (runSched (fun _ => 1) 0 0 1 2 [true, true, true, true, true, false]
       ⟨⟨fun _ => 0, fun _ => 0, fun _ => 0⟩, TStat.ready, TStat.ready⟩).s2 = TStat.lost ∧
     (runSched (fun _ => 1) 0 0 1 2 [true, true, true, true, true, false]
       ⟨⟨fun _ => 0, fun _ => 0, fun _ => 0⟩, TStat.ready, TStat.ready⟩).g =
       (changeNodePartAtomic (fun _ => 1) 0 0 1 ⟨fun _ => 0, fun _ => 0, fun _ => 0⟩).2) ∨
    ((runSched (fun _ => 1) 0 0 1 2 [true, true, true, true, true, false]
       ⟨⟨fun _ => 0, fun _ => 0, fun _ => 0⟩, TStat.ready, TStat.ready⟩).s2 = TStat.won 4 ∧
     (runSched (fun _ => 1) 0 0 1 2 [true, true, true, true, true, false]
       ⟨⟨fun _ => 0, fun _ => 0, fun _ => 0⟩, TStat.ready, TStat.ready⟩).s1 = TStat.lost ∧
     (runSched (fun _ => 1) 0 0 1 2 [true, true, true, true, true, false]
       ⟨⟨fun _ => 0, fun _ => 0, fun _ => 0⟩, TStat.ready, TStat.ready⟩).g =
       (changeNodePartAtomic (fun _ => 1) 0 0 2 ⟨fun _ => 0, fun _ => 0, fun _ => 0⟩).2) :=
  changeNodePart_race (fun _ => 1) ⟨fun _ => 0, fun _ => 0, fun _ => 0⟩ 0 0 1 2
    rfl (by decide) (by decide) (by decide)
    [true, true, true, true, true, false] (by decide)

/-- C6 (counterexample to the claim as stated): the claim requires only
`t1 ≠ t2`.  With `t1 = f` (here `v = 0`, `f = 0`, `t1 = 0`, `t2 = 1`,
both CAS conditions hold in sequence because the winner's CAS rewrites
`part[v]` back to `f`), **both** calls succeed under the schedule where
thread 1 finishes before thread 2 starts, so it is false that exactly one
call returns `true`. -/
theorem raceClaimAsStated_false : ¬ raceClaimAsStated := by
  intro h
  have hres := h (fun _ => 1) ⟨fun _ => 0, fun _ => 0, fun _ => 0⟩ 0 0 0 1 rfl
    (by decide) [true, true, true, true, true, false, false, false, false, false]
    (by decide)
  rcases hres with ⟨-, hb, -⟩ | ⟨-, hb, -⟩ <;> exact absurd hb (by decide)

/-- The spec's `clamp(x, lo, hi)` agrees with the source's
`min(hi, max(x, lo))`. -/
theorem clamp_eq_min_max (x lo hi : ℝ) (h : lo ≤ hi) :
    clamp x lo hi = min hi (max x lo) := by
  simp only [clamp, min_def, max_def]
  split_ifs <;> linarith

/-- The source's `k/2 + (k%2 != 0 ? 1 : 0)` is `⌈k/2⌉ = (k+1)/2`. -/
theorem codeHalfCeil (k : ℕ) : k / 2 + (if k % 2 ≠ 0 then 1 else 0) = (k + 1) / 2 := by
  rcases Nat.mod_two_eq_zero_or_one k with h | h
  · rw [if_neg (by omega)]
    omega
  · rw [if_pos (by omega)]
    omega

/-- `computeAdaptiveEpsilon` is the spec's adaptive-ε formula. -/
theorem computeAdaptiveEpsilon_eq_spec (W0 k0 : ℕ) (eps0 : ℝ) (W k : ℕ) :
    computeAdaptiveEpsilon W0 k0 eps0 W k = adaptiveEpsilonSpec W0 k0 eps0 W k := by
  unfold computeAdaptiveEpsilon adaptiveEpsilonSpec
  by_cases hW : W = 0
  · rw [if_pos hW, if_pos hW]
  · rw [if_neg hW, if_neg hW, clamp_eq_min_max _ _ _ (by norm_num)]

/-- Projection of the default setup: epsilon. -/
theorem setupDefault_epsilon (W0 k0n : ℕ) (eps0 : ℝ) (W k : ℕ) :
    (setupBipartitioningContextDefault W0 k0n eps0 W k).epsilon =
      computeAdaptiveEpsilon W0 k0n eps0 W k := rfl

/-- Projection of the default setup: first perfect weight. -/
theorem setupDefault_perfect0 (W0 k0n : ℕ) (eps0 : ℝ) (W k : ℕ) :
    (setupBipartitioningContextDefault W0 k0n eps0 W k).perfect0 =
      ⌈((k / 2 + (if k % 2 ≠ 0 then 1 else 0) : ℕ) : ℝ) / (k : ℝ) * (W : ℝ)⌉ := rfl

/-- Projection of the default setup: second perfect weight. -/
theorem setupDefault_perfect1 (W0 k0n : ℕ) (eps0 : ℝ) (W k : ℕ) :
    (setupBipartitioningContextDefault W0 k0n eps0 W k).perfect1 =
      ⌈((k / 2 : ℕ) : ℝ) / (k : ℝ) * (W : ℝ)⌉ := rfl

/-- Projection of the default setup: first max weight. -/
theorem setupDefault_max0 (W0 k0n : ℕ) (eps0 : ℝ) (W k : ℕ) :
    (setupBipartitioningContextDefault W0 k0n eps0 W k).max0 =
      ⌊(1 + computeAdaptiveEpsilon W0 k0n eps0 W k) *
        ((⌈((k / 2 + (if k % 2 ≠ 0 then 1 else 0) : ℕ) : ℝ) / (k : ℝ) * (W : ℝ)⌉ : ℤ) :
          ℝ)⌋ := rfl

/-- Projection of the default setup: second max weight. -/
theorem setupDefault_max1 (W0 k0n : ℕ) (eps0 : ℝ) (W k : ℕ) :
    (setupBipartitioningContextDefault W0 k0n eps0 W k).max1 =
      ⌊(1 + computeAdaptiveEpsilon W0 k0n eps0 W k) *
        ((⌈((k / 2 : ℕ) : ℝ) / (k : ℝ) * (W : ℝ)⌉ : ℤ) : ℝ)⌋ := rfl

/-- C1 (amended): in the default path, `setupBipartitioningContext` gives
the bisection context the spec's adaptive tolerance
`ε' = clamp(base^(1/⌈log₂ k⌉) − 1, 0, 0.99)` (`0` when `W = 0`), the
perfect-balance part weights `⌈⌈k/2⌉/k · W⌉` and `⌈⌊k/2⌋/k · W⌉`, and —
because the context stores integral weights — each max part weight is the
**truncation** `⌊(1+ε')·perfect⌋` of `(1+ε')` times the corresponding
perfect weight (rather than that product itself). -/
theorem setupBipartitioningContext_default_spec (W0 k0n : ℕ) (eps0 : ℝ) (W k : ℕ)
    (_hk : 2 ≤ k) :
    (setupBipartitioningContextDefault W0 k0n eps0 W k).epsilon =
      adaptiveEpsilonSpec W0 k0n eps0 W k ∧
    (W = 0 → (setupBipartitioningContextDefault W0 k0n eps0 W k).epsilon = 0) ∧
    (setupBipartitioningContextDefault W0 k0n eps0 W k).perfect0 =
      ⌈(((k + 1) / 2 : ℕ) : ℝ) / (k : ℝ) * (W : ℝ)⌉ ∧
    (setupBipartitioningContextDefault W0 k0n eps0 W k).perfect1 =
      ⌈((k / 2 : ℕ) : ℝ) / (k : ℝ) * (W : ℝ)⌉ ∧
    (setupBipartitioningContextDefault W0 k0n eps0 W k).max0 =
      ⌊(1 + adaptiveEpsilonSpec W0 k0n eps0 W k) *
        ((⌈(((k + 1) / 2 : ℕ) : ℝ) / (k : ℝ) * (W : ℝ)⌉ : ℤ) : ℝ)⌋ ∧
    (setupBipartitioningContextDefault W0 k0n eps0 W k).max1 =
      ⌊(1 + adaptiveEpsilonSpec W0 k0n eps0 W k) *
        ((⌈((k / 2 : ℕ) : ℝ) / (k : ℝ) * (W : ℝ)⌉ : ℤ) : ℝ)⌋ := by
  have heps := computeAdaptiveEpsilon_eq_spec W0 k0n eps0 W k
  have hkk := codeHalfCeil k
  refine ⟨?_, ?_, ?_, ?_, ?_, ?_⟩
  · rw [setupDefault_epsilon, heps]
  · intro h0
    rw [setupDefault_epsilon]
    unfold computeAdaptiveEpsilon
    rw [if_pos h0]
  · rw [setupDefault_perfect0, hkk]
  · rw [setupDefault_perfect1]
  · rw [setupDefault_max0, heps, hkk]
  · rw [setupDefault_max1, heps]

/-- Witness for C1 at `(W₀, k₀, ε₀) = (3, 2, 0)`, `(W, k) = (3, 2)`. -/
theorem setupBipartitioningContext_default_spec_witness :
    (setupBipartitioningContextDefault 3 2 0 3 2).epsilon =
      adaptiveEpsilonSpec 3 2 0 3 2 ∧
    (setupBipartitioningContextDefault 3 2 0 3 2).perfect0 =
      ⌈(((2 + 1) / 2 : ℕ) : ℝ) / ((2 : ℕ) : ℝ) * ((3 : ℕ) : ℝ)⌉ := by
  have h := setupBipartitioningContext_default_spec 3 2 0 3 2 (by norm_num)
  exact ⟨h.1, h.2.2.1⟩

/-- The concrete adaptive ε at `(W₀, k₀, ε₀) = (5, 2, 1/2)`,
`(W, k) = (5, 2)`: `base = ⌈5/2⌉/⌈5/2⌉·(3/2) = 3/2`, `⌈log₂ 2⌉ = 1`, so
`ε' = 1/2`. -/
theorem computeAdaptiveEpsilon_concrete :
    computeAdaptiveEpsilon 5 2 (1/2) 5 2 = 1/2 := by
  unfold computeAdaptiveEpsilon
  rw [if_neg (by norm_num)]
  simp only [Nat.cast_ofNat]
  rw [Real.logb_self_eq_one (by norm_num), Int.ceil_one, Int.cast_one, div_one,
    Real.rpow_one]
  rw [show (⌈(5 : ℝ) / 2⌉ : ℤ) = 3 from by
    rw [Int.ceil_eq_iff]
    norm_num]
  norm_num

/-- C1 (counterexample to the claim as stated): at
`(W₀, k₀, ε₀) = (5, 2, 1/2)` and `(W, k) = (5, 2)` the adaptive ε is
`1/2` and the first perfect weight is `3`, so `(1+ε')·perfect = 4.5`; the
max part weight the context actually stores is the integer `4`, not
`(1+ε')` times the perfect weight. -/
theorem setupBipartitioningContext_default_max_not_exact :
    ¬(((setupBipartitioningContextDefault 5 2 (1/2) 5 2).max0 : ℝ) =
      (1 + (setupBipartitioningContextDefault 5 2 (1/2) 5 2).epsilon) *
        ((setupBipartitioningContextDefault 5 2 (1/2) 5 2).perfect0 : ℝ)) := by
  have hp0 : (⌈((2 / 2 + (if (2 : ℕ) % 2 ≠ 0 then 1 else 0) : ℕ) : ℝ) /
      ((2 : ℕ) : ℝ) * ((5 : ℕ) : ℝ)⌉ : ℤ) = 3 := by
    rw [show (2 / 2 + (if (2 : ℕ) % 2 ≠ 0 then 1 else 0) : ℕ) = 1 from by norm_num]
    simp only [Nat.cast_one, Nat.cast_ofNat]
    rw [Int.ceil_eq_iff]
    norm_num
  have hmax : (setupBipartitioningContextDefault 5 2 (1/2) 5 2).max0 = 4 := by
    rw [setupDefault_max0, computeAdaptiveEpsilon_concrete, hp0]
    rw [show ((3 : ℤ) : ℝ) = 3 from by norm_num]
    rw [Int.floor_eq_iff]
    norm_num
  rw [hmax, setupDefault_epsilon, computeAdaptiveEpsilon_concrete,
    setupDefault_perfect0, hp0]
  norm_num

/-- Projection of the individual setup: epsilon (source form). -/
theorem setupIndividual_epsilon (M : List ℕ) (W k : ℕ) :
    (setupBipartitioningContextIndividual M W k).epsilon =
      individualEpsilonCode M W k := rfl

/-- Projection of the individual setup: first perfect weight (source
form). -/
theorem setupIndividual_perfect0 (M : List ℕ) (W k : ℕ) :
    (setupBipartitioningContextIndividual M W k).perfect0 =
      individualPerfectCode0 M W k := rfl

/-- Projection of the individual setup: second perfect weight (source
form). -/
theorem setupIndividual_perfect1 (M : List ℕ) (W k : ℕ) :
    (setupBipartitioningContextIndividual M W k).perfect1 =
      individualPerfectCode1 M W k := rfl

/-- The code's individual perfect weights match the spec's `s₀`, `s₁`. -/
theorem individualPerfectCode0_eq_spec (M : List ℕ) (W k : ℕ) :
    individualPerfectCode0 M W k = individualPerfectSpec0 M W k := by
  unfold individualPerfectCode0 individualPerfectSpec0
  rw [codeHalfCeil]

/-- The code's second individual perfect weight matches the spec's `s₁`. -/
theorem individualPerfectCode1_eq_spec (M : List ℕ) (W k : ℕ) :
    individualPerfectCode1 M W k = individualPerfectSpec1 M W k := by
  unfold individualPerfectCode1 individualPerfectSpec1
  rw [codeHalfCeil]

/-- Projection of the individual setup: first max weight (source form). -/
theorem setupIndividual_max0 (M : List ℕ) (W k : ℕ) :
    (setupBipartitioningContextIndividual M W k).max0 =
      round ((1 + (setupBipartitioningContextIndividual M W k).epsilon) *
        (((setupBipartitioningContextIndividual M W k).perfect0 : ℤ) : ℝ)) := rfl

/-- Projection of the individual setup: second max weight (source form). -/
theorem setupIndividual_max1 (M : List ℕ) (W k : ℕ) :
    (setupBipartitioningContextIndividual M W k).max1 =
      round ((1 + (setupBipartitioningContextIndividual M W k).epsilon) *
        (((setupBipartitioningContextIndividual M W k).perfect1 : ℤ) : ℝ)) := rfl

/-- C4: with `use_individual_part_weights` set,
`setupBipartitioningContext` computes `f = W / Σ M[i]`,
`s₀ = Σ_{i<⌈k/2⌉} ⌈f·M[i]⌉`, `s₁ = Σ_{i≥⌈k/2⌉} ⌈f·M[i]⌉`,
`base = Σ M[i] / (s₀ + s₁)`, and
`ε' = clamp(base^(1/⌈log₂ k⌉) − 1, 0, 0.99)` (`0` when `W = 0`), and sets
`perfect_balance_part_weights = (s₀, s₁)` and
`max_part_weights = (round((1+ε')·s₀), round((1+ε')·s₁))`, for every
parent context with `k ≥ 2`, `M` of length `k` and positive weight sum
(the division `f` is only meaningful then), and every hypergraph weight
`W`. -/
theorem setupBipartitioningContext_individual_spec (M : List ℕ) (W k : ℕ)
    (_hk : 2 ≤ k) (_hM : M.length = k) (_hsum : 0 < M.sum) :
    (setupBipartitioningContextIndividual M W k).perfect0 =
      individualPerfectSpec0 M W k ∧
    (setupBipartitioningContextIndividual M W k).perfect1 =
      individualPerfectSpec1 M W k ∧
    (setupBipartitioningContextIndividual M W k).epsilon =
      individualEpsilonSpec M W k ∧
    (W = 0 → (setupBipartitioningContextIndividual M W k).epsilon = 0) ∧
    (setupBipartitioningContextIndividual M W k).max0 =
      round ((1 + individualEpsilonSpec M W k) *
        ((individualPerfectSpec0 M W k : ℤ) : ℝ)) ∧
    (setupBipartitioningContextIndividual M W k).max1 =
      round ((1 + individualEpsilonSpec M W k) *
        ((individualPerfectSpec1 M W k : ℤ) : ℝ)) := by
  have hp0 : (setupBipartitioningContextIndividual M W k).perfect0 =
      individualPerfectSpec0 M W k := by
    rw [setupIndividual_perfect0, individualPerfectCode0_eq_spec]
  have hp1 : (setupBipartitioningContextIndividual M W k).perfect1 =
      individualPerfectSpec1 M W k := by
    rw [setupIndividual_perfect1, individualPerfectCode1_eq_spec]
  have heps : (setupBipartitioningContextIndividual M W k).epsilon =
      individualEpsilonSpec M W k := by
    rw [setupIndividual_epsilon]
    unfold individualEpsilonCode individualEpsilonSpec
    rw [individualPerfectCode0_eq_spec, individualPerfectCode1_eq_spec]
    by_cases hW : W = 0
    · rw [if_pos hW, if_pos hW]
    · rw [if_neg hW, if_neg hW, clamp_eq_min_max _ _ _ (by norm_num)]
  refine ⟨hp0, hp1, heps, ?_, ?_, ?_⟩
  · intro h0
    rw [heps]
    unfold individualEpsilonSpec
    rw [if_pos h0]
  · rw [setupIndividual_max0, heps, hp0]
  · rw [setupIndividual_max1, heps, hp1]

/-- Witness for C4 at `M = [2, 3]`, `W = 4`, `k = 2`. -/
theorem setupBipartitioningContext_individual_spec_witness :
    (setupBipartitioningContextIndividual [2, 3] 4 2).perfect0 =
      individualPerfectSpec0 [2, 3] 4 2 ∧
    (setupBipartitioningContextIndividual [2, 3] 4 2).epsilon =
      individualEpsilonSpec [2, 3] 4 2 := by
  have h := setupBipartitioningContext_individual_spec [2, 3] 4 2 (by norm_num)
    (by decide) (by decide)
  exact ⟨h.1, h.2.2.1⟩

end MtKaHyPar
